import Mathlib

/-!
Verification of the LSB steganography routines of the repository:
`src/bit_iter.rs` (the bit iterator over a byte) and `src/main.rs`
(`hide_lsb` and `reveal_lsb`).  Machine `u8` values are embedded as `Nat`
with an explicit `< 256` validity invariant where the claims need it.
-/

namespace Steg

/-- `BIT_MASK` from `src/bit_iter.rs`. -/
def BIT_MASK : List Nat := [1, 2, 4, 8, 16, 32, 64, 128]

/-- `IterBits` from `src/bit_iter.rs`: starting at `i = 0`, the iterator
yields `value & BIT_MASK[i] != 0` for `i = 0, 1, ..., 7`, then stops.
Embedded as the list of the eight produced booleans. -/
def iterBits (value : Nat) : List Bool :=
  BIT_MASK.map (fun m => (value &&& m) != 0)

/-- `LSB_MESSAGE_SUFFIX` from `src/main.rs`:
`[u8::MAX, u8::MAX, u8::MIN, u8::MIN, u8::MAX, u8::MIN]`. -/
def LSB_MESSAGE_SUFFIX : List Nat := [255, 255, 0, 0, 255, 0]

/-- An RGBA pixel, as returned by `image.get_pixel` (`Rgba<u8>`). -/
structure Pixel where
  r : Nat
  g : Nat
  b : Nat
  a : Nat
deriving DecidableEq, Repr

/-- An image: dimensions plus the row-major pixel list (`y` outer, `x`
inner, exactly the traversal order of both loops in `src/main.rs`). -/
structure Image where
  width : Nat
  height : Nat
  pixels : List Pixel
deriving DecidableEq

/-- Setting the least significant bit of a channel, the body of the
`if value` in `hide_lsb`: `pixel.0[idx] |= 1` / `pixel.0[idx] &= !1`
(`!1 = 254` on `u8`). -/
def setLsb (c : Nat) (value : Bool) : Nat :=
  if value then c ||| 1 else c &&& 254

/-- The inner `for idx in 0..3` loop of `hide_lsb` on one pixel: takes up
to three bits off the stream, writes them into the LSBs of r, g, b in that
order, and returns the updated pixel plus the remaining bits.  Running out
of bits mid-pixel leaves the remaining channels untouched (the Rust code
breaks, writes the partially updated pixel back, and returns). -/
def hidePixel (p : Pixel) (bits : List Bool) : Pixel × List Bool :=
  match bits with
  | [] => (p, [])
  | b0 :: rest0 =>
    let p0 : Pixel := { p with r := setLsb p.r b0 }
    match rest0 with
    | [] => (p0, [])
    | b1 :: rest1 =>
      let p1 : Pixel := { p0 with g := setLsb p0.g b1 }
      match rest1 with
      | [] => (p1, [])
      | b2 :: rest2 => ({ p1 with b := setLsb p1.b b2 }, rest2)

/-- The pixel loops of `hide_lsb`: thread the bit stream through the
pixels in row-major order.  Once the stream is exhausted the Rust code
returns early, leaving every later pixel exactly as it was; here that is
`hidePixel p [] = (p, [])`. -/
def hidePixels : List Pixel → List Bool → List Pixel
  | [], _ => []
  | p :: ps, bits =>
    let pr := hidePixel p bits
    pr.1 :: hidePixels ps pr.2

/-- The bit stream `hide_lsb` embeds:
`message.iter().chain(LSB_MESSAGE_SUFFIX).map(iter_bits).flatten()`. -/
def messageBits (message : List Nat) : List Bool :=
  (message ++ LSB_MESSAGE_SUFFIX).flatMap iterBits

/-- `hide_lsb` from `src/main.rs` (the `debug_assert!` is compiled out in
release builds and raises no error; the function silently truncates). -/
def hide_lsb (image : Image) (message : List Nat) : Image :=
  { image with pixels := hidePixels image.pixels (messageBits message) }

/-- The channel stream `reveal_lsb` reads: r, g, b of each pixel in
row-major order (`pixel.0[idx]` for `idx in 0..3`). -/
def channelsOf : List Pixel → List Nat
  | [] => []
  | p :: ps => p.r :: p.g :: p.b :: channelsOf ps

/-- The loop of `reveal_lsb`: state is the assembled partial `byte`, the
count `bits_read`, and the output `bytes`.  After each completed byte the
code checks `bytes.ends_with(LSB_MESSAGE_SUFFIX)` and on a match truncates
the suffix away and returns. -/
def revealLoop : List Nat → Nat → Nat → List Nat → List Nat
  | [], _, _, bytes => bytes
  | c :: rest, byte, bitsRead, bytes =>
    let byte1 := byte ||| ((c &&& 1) <<< bitsRead)
    let bitsRead1 := bitsRead + 1
    if bitsRead1 == 8 then
      let bytes1 := bytes ++ [byte1]
      if LSB_MESSAGE_SUFFIX.isSuffixOf bytes1 then
        bytes1.take (bytes1.length - LSB_MESSAGE_SUFFIX.length)
      else
        revealLoop rest 0 0 bytes1
    else
      revealLoop rest byte1 bitsRead1 bytes

/-- `reveal_lsb` from `src/main.rs`. -/
def reveal_lsb (image : Image) : List Nat :=
  revealLoop (channelsOf image.pixels) 0 0 []

/-- Validity invariant: every channel is an actual `u8` value. -/
def Pixel.Valid (p : Pixel) : Prop :=
  p.r < 256 ∧ p.g < 256 ∧ p.b < 256 ∧ p.a < 256

/-- A valid image: every pixel holds `u8` channels. -/
def Image.Valid (img : Image) : Prop :=
  ∀ p ∈ img.pixels, p.Valid

instance (p : Pixel) : Decidable p.Valid := by
  unfold Pixel.Valid
  infer_instance

instance (img : Image) : Decidable img.Valid := by
  unfold Image.Valid
  infer_instance

/-! Specification-level helpers used to state and prove the claims.  They
are characterisations proved against the embedded code, not part of it. -/

/-- Channel-wise view of what `hidePixels` does to the flattened channel
stream: overwrite LSBs with the bits while they last, keep the rest. -/
def applyBits : List Nat → List Bool → List Nat
  | cs, [] => cs
  | [], _ :: _ => []
  | c :: cs, b :: bs => setLsb c b :: applyBits cs bs

/-- The byte assembled by `reveal_lsb` from eight channels: LSB of the
first channel becomes bit 0, of the eighth becomes bit 7. -/
def decodeByte (c0 c1 c2 c3 c4 c5 c6 c7 : Nat) : Nat :=
  c0 % 2 + 2 * (c1 % 2) + 4 * (c2 % 2) + 8 * (c3 % 2) +
    16 * (c4 % 2) + 32 * (c5 % 2) + 64 * (c6 % 2) + 128 * (c7 % 2)

/-- All fully assembled bytes of a channel stream: groups of eight
channels become one byte each; a trailing partial group is dropped. -/
def lsbBytes : List Nat → List Nat
  | c0 :: c1 :: c2 :: c3 :: c4 :: c5 :: c6 :: c7 :: rest =>
    decodeByte c0 c1 c2 c3 c4 c5 c6 c7 :: lsbBytes rest
  | _ => []

/-- Byte-level restatement of the `reveal_lsb` loop: consume assembled
bytes one at a time, stopping with truncation at the first accumulated
list that ends with the marker. -/
def revealBytesSpec : List Nat → List Nat → List Nat
  | [], acc => acc
  | v :: vs, acc =>
    let acc1 := acc ++ [v]
    if LSB_MESSAGE_SUFFIX.isSuffixOf acc1 then
      acc1.take (acc1.length - LSB_MESSAGE_SUFFIX.length)
    else
      revealBytesSpec vs acc1

/-! ### Basic facts about the embedded operations -/

lemma marker_length : LSB_MESSAGE_SUFFIX.length = 6 := rfl

lemma marker_mem_lt (v : Nat) (hv : v ∈ LSB_MESSAGE_SUFFIX) : v < 256 := by
  simp [LSB_MESSAGE_SUFFIX] at hv
  rcases hv with h | h | h <;> omega

lemma setLsb_mod_two (c : Nat) (b : Bool) : setLsb c b % 2 = if b then 1 else 0 := by
  cases b with
  | true =>
    show (c ||| 1) % 2 = 1
    rw [← Nat.and_one_is_mod, Nat.and_distrib_right, Nat.and_one_is_mod]
    have h2 : c % 2 = 0 ∨ c % 2 = 1 := by omega
    rcases h2 with h | h <;> rw [h] <;> rfl
  | false =>
    show (c &&& 254) % 2 = 0
    rw [← Nat.and_one_is_mod, Nat.and_assoc]
    have h254 : (254 : Nat) &&& 1 = 0 := by rfl
    rw [h254, Nat.and_zero]

set_option maxRecDepth 4096 in
lemma setLsb_eq_aux : ∀ c : Fin 256, ∀ b : Bool,
    setLsb c.val b = 2 * (c.val / 2) + (if b then 1 else 0) := by decide

lemma setLsb_eq (c : Nat) (hc : c < 256) (b : Bool) :
    setLsb c b = 2 * (c / 2) + (if b then 1 else 0) :=
  setLsb_eq_aux ⟨c, hc⟩ b

set_option maxRecDepth 4096 in
lemma or_fold_aux : ∀ m0 m1 m2 m3 m4 m5 m6 m7 : Fin 2,
    ((((((((0 : Nat) ||| m0.val <<< 0) ||| m1.val <<< 1) ||| m2.val <<< 2) ||| m3.val <<< 3) |||
      m4.val <<< 4) ||| m5.val <<< 5) ||| m6.val <<< 6) ||| m7.val <<< 7 =
      m0.val + 2 * m1.val + 4 * m2.val + 8 * m3.val + 16 * m4.val + 32 * m5.val +
        64 * m6.val + 128 * m7.val := by decide

lemma byte_or_eq (c0 c1 c2 c3 c4 c5 c6 c7 : Nat) :
    ((((((((0 : Nat) ||| (c0 &&& 1) <<< 0) ||| (c1 &&& 1) <<< 1) ||| (c2 &&& 1) <<< 2) |||
      (c3 &&& 1) <<< 3) ||| (c4 &&& 1) <<< 4) ||| (c5 &&& 1) <<< 5) ||| (c6 &&& 1) <<< 6) |||
      (c7 &&& 1) <<< 7 = decodeByte c0 c1 c2 c3 c4 c5 c6 c7 := by
  simp only [Nat.and_one_is_mod]
  have h := or_fold_aux ⟨c0 % 2, by omega⟩ ⟨c1 % 2, by omega⟩ ⟨c2 % 2, by omega⟩
    ⟨c3 % 2, by omega⟩ ⟨c4 % 2, by omega⟩ ⟨c5 % 2, by omega⟩ ⟨c6 % 2, by omega⟩
    ⟨c7 % 2, by omega⟩
  simpa [decodeByte] using h

/-! ### The reveal loop, byte by byte -/

lemma revealLoop_cons8 (c0 c1 c2 c3 c4 c5 c6 c7 : Nat) (rest acc : List Nat) :
    revealLoop (c0 :: c1 :: c2 :: c3 :: c4 :: c5 :: c6 :: c7 :: rest) 0 0 acc =
      (if LSB_MESSAGE_SUFFIX.isSuffixOf (acc ++ [decodeByte c0 c1 c2 c3 c4 c5 c6 c7]) then
        (acc ++ [decodeByte c0 c1 c2 c3 c4 c5 c6 c7]).take
          ((acc ++ [decodeByte c0 c1 c2 c3 c4 c5 c6 c7]).length - LSB_MESSAGE_SUFFIX.length)
      else
        revealLoop rest 0 0 (acc ++ [decodeByte c0 c1 c2 c3 c4 c5 c6 c7])) := by
  simp only [revealLoop, Nat.reduceAdd, Nat.reduceBEq, Bool.false_eq_true, if_false, if_true,
    ite_false, ite_true]
  rw [byte_or_eq]

lemma revealLoop_short : ∀ (cs : List Nat) (byte k : Nat) (acc : List Nat),
    cs.length + k < 8 → revealLoop cs byte k acc = acc := by
  intro cs
  induction cs with
  | nil => intro byte k acc h; rfl
  | cons c cs ih =>
    intro byte k acc h
    simp only [List.length_cons] at h
    have hk : (k + 1 == 8) = false := by
      simp only [beq_eq_false_iff_ne, ne_eq]
      omega
    simp only [revealLoop, hk, Bool.false_eq_true, if_false]
    exact ih _ _ _ (by omega)

lemma cons8_of_length (cs : List Nat) (h : 8 ≤ cs.length) :
    ∃ c0 c1 c2 c3 c4 c5 c6 c7 tl,
      cs = c0 :: c1 :: c2 :: c3 :: c4 :: c5 :: c6 :: c7 :: tl := by
  rcases cs with _ | ⟨c0, _ | ⟨c1, _ | ⟨c2, _ | ⟨c3, _ | ⟨c4, _ | ⟨c5, _ | ⟨c6, _ | ⟨c7, tl⟩⟩⟩⟩⟩⟩⟩⟩
  all_goals first
    | exact ⟨_, _, _, _, _, _, _, _, tl, rfl⟩
    | (exfalso; simp at h)

lemma lsbBytes_short {cs : List Nat} (h : cs.length < 8) : lsbBytes cs = [] := by
  rcases cs with _ | ⟨c0, _ | ⟨c1, _ | ⟨c2, _ | ⟨c3, _ | ⟨c4, _ | ⟨c5, _ | ⟨c6, _ | ⟨c7, tl⟩⟩⟩⟩⟩⟩⟩⟩
  all_goals first
    | rfl
    | (exfalso; simp at h; omega)

lemma revealLoop_eq_spec : ∀ (cs : List Nat) (acc : List Nat),
    revealLoop cs 0 0 acc = revealBytesSpec (lsbBytes cs) acc := by
  intro cs
  induction cs using lsbBytes.induct with
  | case1 c0 c1 c2 c3 c4 c5 c6 c7 rest ih =>
    intro acc
    rw [revealLoop_cons8]
    simp only [lsbBytes, revealBytesSpec]
    by_cases h : LSB_MESSAGE_SUFFIX.isSuffixOf (acc ++ [decodeByte c0 c1 c2 c3 c4 c5 c6 c7]) = true
    · simp only [h, if_true]
    · simp only [h, if_false]
      exact ih _
  | case2 cs h =>
    intro acc
    have hlen : cs.length < 8 := by
      by_contra hc
      obtain ⟨c0, c1, c2, c3, c4, c5, c6, c7, tl, rfl⟩ := cons8_of_length cs (by omega)
      exact h _ _ _ _ _ _ _ _ _ rfl
    rw [lsbBytes_short hlen, revealLoop_short cs 0 0 acc (by omega)]
    rfl

/-! ### The byte-level loop: no match, and first match -/

lemma rbs_nomatch : ∀ (B acc : List Nat),
    (∀ j, 1 ≤ j → j ≤ B.length → ¬ LSB_MESSAGE_SUFFIX <:+ (acc ++ B.take j)) →
    revealBytesSpec B acc = acc ++ B := by
  intro B
  induction B with
  | nil => intro acc _; simp [revealBytesSpec]
  | cons v B ih =>
    intro acc h
    have h1 : ¬ LSB_MESSAGE_SUFFIX <:+ (acc ++ [v]) := by
      have := h 1 (by omega) (by simp)
      simpa using this
    have hb : LSB_MESSAGE_SUFFIX.isSuffixOf (acc ++ [v]) = false := by
      rw [← Bool.not_eq_true, List.isSuffixOf_iff_suffix]
      exact h1
    simp only [revealBytesSpec, hb, Bool.false_eq_true, if_false]
    rw [ih (acc ++ [v]) ?_]
    · simp
    · intro j hj1 hj2 hsfx
      refine h (j + 1) (by omega) (by simpa using (by omega : j + 1 ≤ B.length + 1)) ?_
      simpa [List.append_assoc] using hsfx

lemma rbs_stops_aux (C junk : List Nat)
    (hend : LSB_MESSAGE_SUFFIX <:+ C)
    (hfirst : ∀ j, j < C.length → ¬ LSB_MESSAGE_SUFFIX <:+ C.take j) :
    ∀ k i, i + k = C.length → i < C.length →
      revealBytesSpec (C.drop i ++ junk) (C.take i) = C.take (C.length - 6) := by
  intro k
  induction k with
  | zero => intro i hik hi; omega
  | succ k ih =>
    intro i hik hi
    rw [List.drop_eq_getElem_cons hi]
    simp only [List.cons_append, revealBytesSpec]
    have htake : C.take i ++ [C[i]] = C.take (i + 1) := by
      rw [List.take_succ, List.getElem?_eq_getElem hi]
      rfl
    rw [htake]
    by_cases hlast : i + 1 = C.length
    · have hC : C.take (i + 1) = C := by rw [hlast, List.take_length]
      rw [hC]
      have hb : LSB_MESSAGE_SUFFIX.isSuffixOf C = true := by
        rw [List.isSuffixOf_iff_suffix]; exact hend
      simp only [hb, if_true]
      simp [LSB_MESSAGE_SUFFIX]
    · have hno : ¬ LSB_MESSAGE_SUFFIX <:+ C.take (i + 1) := hfirst (i + 1) (by omega)
      have hb : LSB_MESSAGE_SUFFIX.isSuffixOf (C.take (i + 1)) = false := by
        rw [← Bool.not_eq_true, List.isSuffixOf_iff_suffix]; exact hno
      simp only [hb, Bool.false_eq_true, if_false]
      exact ih (i + 1) (by omega) (by omega)

lemma rbs_stops (C junk : List Nat)
    (hend : LSB_MESSAGE_SUFFIX <:+ C)
    (hfirst : ∀ j, j < C.length → ¬ LSB_MESSAGE_SUFFIX <:+ C.take j) :
    revealBytesSpec (C ++ junk) [] = C.take (C.length - 6) := by
  have hlen : 6 ≤ C.length := by
    have := hend.length_le
    simpa [marker_length] using this
  have h := rbs_stops_aux C junk hend hfirst C.length 0 (by omega) (by omega)
  simpa using h

/-! ### The hide side: channel-wise characterisation -/

lemma hidePixels_nil : ∀ ps : List Pixel, hidePixels ps [] = ps := by
  intro ps
  induction ps with
  | nil => rfl
  | cons p ps ih => simp [hidePixels, hidePixel, ih]

lemma channelsOf_cons (p : Pixel) (ps : List Pixel) :
    channelsOf (p :: ps) = p.r :: p.g :: p.b :: channelsOf ps := rfl

lemma channelsOf_hidePixels : ∀ (ps : List Pixel) (bits : List Bool),
    channelsOf (hidePixels ps bits) = applyBits (channelsOf ps) bits := by
  intro ps
  induction ps with
  | nil => intro bits; cases bits <;> rfl
  | cons p ps ih =>
    intro bits
    rcases bits with _ | ⟨b0, _ | ⟨b1, _ | ⟨b2, rest⟩⟩⟩
    · rw [hidePixels_nil]; rfl
    · simp [hidePixels, hidePixel, channelsOf, applyBits, hidePixels_nil]
    · simp [hidePixels, hidePixel, channelsOf, applyBits, hidePixels_nil]
    · simp [hidePixels, hidePixel, channelsOf, applyBits, ih]

set_option maxRecDepth 4096 in
lemma decode_iterBits_aux : ∀ v : Fin 256,
    (if (v.val &&& 1 != 0) = true then 1 else 0) +
      2 * (if (v.val &&& 2 != 0) = true then 1 else 0) +
      4 * (if (v.val &&& 4 != 0) = true then 1 else 0) +
      8 * (if (v.val &&& 8 != 0) = true then 1 else 0) +
      16 * (if (v.val &&& 16 != 0) = true then 1 else 0) +
      32 * (if (v.val &&& 32 != 0) = true then 1 else 0) +
      64 * (if (v.val &&& 64 != 0) = true then 1 else 0) +
      128 * (if (v.val &&& 128 != 0) = true then 1 else 0) = v.val := by decide

lemma decodeByte_setLsb (c0 c1 c2 c3 c4 c5 c6 c7 : Nat) (b0 b1 b2 b3 b4 b5 b6 b7 : Bool) :
    decodeByte (setLsb c0 b0) (setLsb c1 b1) (setLsb c2 b2) (setLsb c3 b3)
      (setLsb c4 b4) (setLsb c5 b5) (setLsb c6 b6) (setLsb c7 b7) =
      (if b0 then 1 else 0) + 2 * (if b1 then 1 else 0) + 4 * (if b2 then 1 else 0) +
        8 * (if b3 then 1 else 0) + 16 * (if b4 then 1 else 0) + 32 * (if b5 then 1 else 0) +
        64 * (if b6 then 1 else 0) + 128 * (if b7 then 1 else 0) := by
  simp only [decodeByte, setLsb_mod_two]

lemma applyBits_nil : ∀ cs : List Nat, applyBits cs [] = cs := by
  intro cs; cases cs <;> rfl

lemma drop_cons8 (c0 c1 c2 c3 c4 c5 c6 c7 : Nat) (tl : List Nat) (n : Nat) :
    (c0 :: c1 :: c2 :: c3 :: c4 :: c5 :: c6 :: c7 :: tl).drop (8 * (n + 1)) =
      tl.drop (8 * n) := by
  have h : 8 * (n + 1) = 8 * n + 1 + 1 + 1 + 1 + 1 + 1 + 1 + 1 := by ring
  simp only [h, List.drop_succ_cons]

lemma lsbBytes_applyBits : ∀ (B cs : List Nat), (∀ v ∈ B, v < 256) →
    8 * B.length ≤ cs.length →
    lsbBytes (applyBits cs (B.flatMap iterBits)) = B ++ lsbBytes (cs.drop (8 * B.length)) := by
  intro B
  induction B with
  | nil =>
    intro cs _ _
    simp only [List.flatMap_nil, List.length_nil, Nat.mul_zero, List.drop_zero, List.nil_append,
      applyBits_nil]
  | cons v B ih =>
    intro cs hB hlen
    have hlen8 : 8 ≤ cs.length := by
      simp only [List.length_cons] at hlen
      omega
    obtain ⟨c0, c1, c2, c3, c4, c5, c6, c7, tl, rfl⟩ := cons8_of_length cs hlen8
    have hlB : 8 * B.length ≤ tl.length := by
      simp only [List.length_cons] at hlen
      omega
    have hB' : ∀ w ∈ B, w < 256 := fun w hw => hB w (List.mem_cons_of_mem v hw)
    rw [List.flatMap_cons]
    have hbits : iterBits v = [v &&& 1 != 0, v &&& 2 != 0, v &&& 4 != 0, v &&& 8 != 0,
        v &&& 16 != 0, v &&& 32 != 0, v &&& 64 != 0, v &&& 128 != 0] := rfl
    rw [hbits]
    simp only [List.cons_append, List.nil_append, applyBits, lsbBytes, List.append_eq]
    rw [decodeByte_setLsb, ih tl hB' hlB]
    simp only [List.length_cons]
    rw [drop_cons8]
    have hv := decode_iterBits_aux ⟨v, hB v (List.mem_cons_self v B)⟩
    simp only at hv
    rw [hv]

/-! ### Lengths and the no-self-overlap property of the marker -/

lemma iterBits_length (v : Nat) : (iterBits v).length = 8 := rfl

lemma flatMap_iterBits_length : ∀ l : List Nat, (l.flatMap iterBits).length = 8 * l.length := by
  intro l
  induction l with
  | nil => rfl
  | cons v l ih =>
    rw [List.flatMap_cons, List.length_append, iterBits_length, ih, List.length_cons]
    ring

lemma messageBits_length (m : List Nat) : (messageBits m).length = 8 * (m.length + 6) := by
  rw [messageBits, flatMap_iterBits_length, List.length_append, marker_length]

lemma channelsOf_length : ∀ ps : List Pixel, (channelsOf ps).length = 3 * ps.length := by
  intro ps
  induction ps with
  | nil => rfl
  | cons p ps ih =>
    rw [channelsOf, List.length_cons, List.length_cons, List.length_cons, ih, List.length_cons]
    ring

lemma no_marker_in_prefixes (m : List Nat)
    (hm : ∀ j, j ≤ m.length → ¬ LSB_MESSAGE_SUFFIX <:+ m.take j) :
    ∀ j, j < (m ++ LSB_MESSAGE_SUFFIX).length →
      ¬ LSB_MESSAGE_SUFFIX <:+ (m ++ LSB_MESSAGE_SUFFIX).take j := by
  intro j hj hsfx
  rw [List.length_append, marker_length] at hj
  by_cases hjm : j ≤ m.length
  · rw [List.take_append_eq_append_take] at hsfx
    have h0 : j - m.length = 0 := by omega
    rw [h0] at hsfx
    simp only [List.take_zero, List.append_nil] at hsfx
    exact hm j hjm hsfx
  · push_neg at hjm
    have h6 : 6 ≤ j := by
      have hl := hsfx.length_le
      rw [List.length_take, marker_length, List.length_append, marker_length] at hl
      omega
    rw [List.take_append_eq_append_take, List.take_of_length_le (by omega)] at hsfx
    rw [List.suffix_iff_eq_drop] at hsfx
    have hlen2 : (m ++ LSB_MESSAGE_SUFFIX.take (j - m.length)).length = j := by
      rw [List.length_append, List.length_take, marker_length]
      omega
    rw [hlen2, marker_length] at hsfx
    have hk : j - 6 ≤ m.length := by omega
    rw [List.drop_append_eq_append_drop] at hsfx
    have h0 : j - 6 - m.length = 0 := by omega
    rw [h0, List.drop_zero] at hsfx
    have hdlen : (m.drop (j - 6)).length = 6 - (j - m.length) := by
      rw [List.length_drop]
      omega
    have hfinal : LSB_MESSAGE_SUFFIX.drop (6 - (j - m.length)) =
        LSB_MESSAGE_SUFFIX.take (j - m.length) := by
      calc LSB_MESSAGE_SUFFIX.drop (6 - (j - m.length))
          = (m.drop (j - 6) ++ LSB_MESSAGE_SUFFIX.take (j - m.length)).drop
              (6 - (j - m.length)) := by rw [← hsfx]
        _ = LSB_MESSAGE_SUFFIX.take (j - m.length) := List.drop_left' hdlen
    have ht1 : 1 ≤ j - m.length := by omega
    have ht5 : j - m.length ≤ 5 := by omega
    set t := j - m.length with htdef
    interval_cases t <;> simp [LSB_MESSAGE_SUFFIX] at hfinal

/-! ### The round-trip core -/

lemma reveal_hide (img : Image) (m : List Nat)
    (hpix : img.pixels.length = img.width * img.height)
    (hm : ∀ v ∈ m, v < 256)
    (hcap : 8 * (m.length + 6) ≤ img.width * img.height * 3)
    (hnomark : ∀ j, j ≤ m.length → ¬ LSB_MESSAGE_SUFFIX <:+ m.take j) :
    reveal_lsb (hide_lsb img m) = m := by
  have hB : ∀ v ∈ m ++ LSB_MESSAGE_SUFFIX, v < 256 := by
    intro v hv
    rcases List.mem_append.mp hv with h | h
    · exact hm v h
    · exact marker_mem_lt v h
  have hlen : 8 * (m ++ LSB_MESSAGE_SUFFIX).length ≤ (channelsOf img.pixels).length := by
    rw [List.length_append, marker_length, channelsOf_length, hpix]
    omega
  have step1 : reveal_lsb (hide_lsb img m) =
      revealBytesSpec (lsbBytes (applyBits (channelsOf img.pixels) (messageBits m))) [] := by
    rw [reveal_lsb, hide_lsb, channelsOf_hidePixels, revealLoop_eq_spec]
  rw [step1, messageBits, lsbBytes_applyBits (m ++ LSB_MESSAGE_SUFFIX) _ hB hlen, rbs_stops]
  · rw [List.length_append, marker_length]
    have h : m.length + 6 - 6 = m.length := by omega
    rw [h, List.take_left]
  · exact List.suffix_append m LSB_MESSAGE_SUFFIX
  · exact no_marker_in_prefixes m hnomark

/-! ### Frame lemmas for hide -/

lemma applyBits_length : ∀ (cs : List Nat) (bs : List Bool),
    (applyBits cs bs).length = cs.length := by
  intro cs
  induction cs with
  | nil => intro bs; cases bs <;> rfl
  | cons c cs ih =>
    intro bs
    cases bs with
    | nil => rfl
    | cons b bs => simp [applyBits, ih]

lemma applyBits_getD_div (cs : List Nat) (bs : List Bool) (h : ∀ c ∈ cs, c < 256) :
    ∀ i, (applyBits cs bs).getD i 0 / 2 = cs.getD i 0 / 2 := by
  induction cs generalizing bs with
  | nil => intro i; cases bs <;> rfl
  | cons c cs ih =>
    intro i
    cases bs with
    | nil => rfl
    | cons b bs =>
      cases i with
      | zero =>
        simp only [applyBits, List.getD_cons_zero]
        rw [setLsb_eq c (h c (List.mem_cons_self c cs)) b]
        cases b with
        | false => simp
        | true => simp; omega
      | succ i =>
        simp only [applyBits, List.getD_cons_succ]
        exact ih bs (fun x hx => h x (List.mem_cons_of_mem c hx)) i

lemma applyBits_getD_tail (cs : List Nat) (bs : List Bool) :
    ∀ i, bs.length ≤ i → (applyBits cs bs).getD i 0 = cs.getD i 0 := by
  induction cs generalizing bs with
  | nil => intro i _; cases bs <;> rfl
  | cons c cs ih =>
    intro i hi
    cases bs with
    | nil => rfl
    | cons b bs =>
      simp only [List.length_cons] at hi
      cases i with
      | zero => omega
      | succ i =>
        simp only [applyBits, List.getD_cons_succ]
        exact ih bs i (by omega)

lemma channelsOf_valid (img : Image) (hval : img.Valid) :
    ∀ c ∈ channelsOf img.pixels, c < 256 := by
  have : ∀ ps : List Pixel, (∀ p ∈ ps, p.Valid) → ∀ c ∈ channelsOf ps, c < 256 := by
    intro ps
    induction ps with
    | nil => intro _ c hc; simp [channelsOf] at hc
    | cons p ps ih =>
      intro hv c hc
      rw [channelsOf_cons] at hc
      simp only [List.mem_cons] at hc
      rcases hc with h | h | h | h
      · exact h ▸ (hv p (List.mem_cons_self p ps)).1
      · exact h ▸ (hv p (List.mem_cons_self p ps)).2.1
      · exact h ▸ (hv p (List.mem_cons_self p ps)).2.2.1
      · exact ih (fun q hq => hv q (List.mem_cons_of_mem p hq)) c h
  exact this img.pixels hval


lemma hidePixels_length : ∀ (ps : List Pixel) (bits : List Bool),
    (hidePixels ps bits).length = ps.length := by
  intro ps
  induction ps with
  | nil => intro bits; rfl
  | cons p ps ih =>
    intro bits
    rcases bits with _ | ⟨b0, _ | ⟨b1, _ | ⟨b2, rest⟩⟩⟩ <;>
      simp [hidePixels, hidePixel, ih, hidePixels_nil]

lemma hidePixel_alpha (p : Pixel) (bits : List Bool) : (hidePixel p bits).1.a = p.a := by
  rcases bits with _ | ⟨b0, _ | ⟨b1, _ | ⟨b2, rest⟩⟩⟩ <;> rfl

lemma hidePixels_alpha : ∀ (ps : List Pixel) (bits : List Bool) (i : Nat),
    ((hidePixels ps bits).getD i ⟨0, 0, 0, 0⟩).a = (ps.getD i ⟨0, 0, 0, 0⟩).a := by
  intro ps
  induction ps with
  | nil => intro bits i; rfl
  | cons p ps ih =>
    intro bits i
    cases i with
    | zero =>
      simp only [hidePixels, List.getD_cons_zero]
      exact hidePixel_alpha p bits
    | succ i =>
      simp only [hidePixels, List.getD_cons_succ]
      exact ih _ i

lemma hidePixels_truncate : ∀ (ps : List Pixel) (bits : List Bool),
    hidePixels ps bits = hidePixels ps (bits.take (3 * ps.length)) := by
  intro ps
  induction ps with
  | nil => intro bits; rfl
  | cons p ps ih =>
    intro bits
    rcases bits with _ | ⟨b0, _ | ⟨b1, _ | ⟨b2, rest⟩⟩⟩
    · rfl
    · rw [List.take_of_length_le]
      simp only [List.length_cons, List.length_nil]
      omega
    · rw [List.take_of_length_le]
      simp only [List.length_cons, List.length_nil]
      omega
    · have h3 : 3 * (p :: ps).length = 3 * ps.length + 1 + 1 + 1 := by
        simp only [List.length_cons]
        ring
      rw [h3]
      simp only [List.take_succ_cons]
      simp only [hidePixels, hidePixel]
      exact congrArg _ (ih rest)


lemma lsbBytes_length : ∀ cs : List Nat, (lsbBytes cs).length = cs.length / 8 := by
  intro cs
  induction cs using lsbBytes.induct with
  | case1 c0 c1 c2 c3 c4 c5 c6 c7 rest ih =>
    simp only [lsbBytes, List.length_cons, ih]
    omega
  | case2 cs h =>
    have hlen : cs.length < 8 := by
      by_contra hc
      obtain ⟨c0, c1, c2, c3, c4, c5, c6, c7, tl, rfl⟩ := cons8_of_length cs (by omega)
      exact h _ _ _ _ _ _ _ _ _ rfl
    rw [lsbBytes_short hlen, Nat.div_eq_of_lt hlen]
    rfl

lemma and_two_pow_ne (v k : Nat) : (v &&& 2 ^ k != 0) = v.testBit k := by
  cases hb : v.testBit k with
  | true => simp [Nat.and_two_pow, hb, Nat.pos_iff_ne_zero.mp (Nat.two_pow_pos k)]
  | false => simp [Nat.and_two_pow, hb]

lemma iterBits_getD_testBit (v : Nat) : ∀ i, i < 8 →
    (iterBits v).getD i false = v.testBit i := by
  intro i hi
  interval_cases i
  · simpa [iterBits, BIT_MASK] using and_two_pow_ne v 0
  · simpa [iterBits, BIT_MASK] using and_two_pow_ne v 1
  · simpa [iterBits, BIT_MASK] using and_two_pow_ne v 2
  · simpa [iterBits, BIT_MASK] using and_two_pow_ne v 3
  · simpa [iterBits, BIT_MASK] using and_two_pow_ne v 4
  · simpa [iterBits, BIT_MASK] using and_two_pow_ne v 5
  · simpa [iterBits, BIT_MASK] using and_two_pow_ne v 6
  · simpa [iterBits, BIT_MASK] using and_two_pow_ne v 7

/-- C1 (counterexample): a message that itself ends with the marker bytes is
not recovered by the round trip, although it fits the capacity bound of the
claim: the grid is 4 x 8 (96 channel slots), the message is the 6 marker
bytes (96 bits with the appended marker), yet `reveal` stops at the first
marker match and returns `[]`. -/
theorem C1_counterexample :
    (0 : Nat) < (Image.mk 4 8 (List.replicate 32 ⟨0, 0, 0, 0⟩)).width ∧
    (0 : Nat) < (Image.mk 4 8 (List.replicate 32 ⟨0, 0, 0, 0⟩)).height ∧
    (Image.mk 4 8 (List.replicate 32 ⟨0, 0, 0, 0⟩)).pixels.length = 4 * 8 ∧
    (∀ v ∈ [255, 255, 0, 0, 255, 0], v < 256) ∧
    8 * (([255, 255, 0, 0, 255, 0] : List Nat).length + 6) ≤ 4 * 8 * 3 ∧
    reveal_lsb (hide_lsb (Image.mk 4 8 (List.replicate 32 ⟨0, 0, 0, 0⟩))
      [255, 255, 0, 0, 255, 0]) ≠ [255, 255, 0, 0, 255, 0] := by decide

/-- C1 (amended): the round trip `reveal (hide grid m) = m` holds for every
message fitting the capacity bound `8*(len(m)+6) ≤ width*height*3`, provided
the message contains no byte-aligned occurrence of the 6-byte marker. -/
theorem C1_roundtrip (img : Image) (m : List Nat)
    (_hw : 0 < img.width) (_hh : 0 < img.height)
    (hpix : img.pixels.length = img.width * img.height)
    (hm : ∀ v ∈ m, v < 256)
    (hcap : 8 * (m.length + 6) ≤ img.width * img.height * 3)
    (hnomark : ∀ j, j ≤ m.length → ¬ LSB_MESSAGE_SUFFIX <:+ m.take j) :
    reveal_lsb (hide_lsb img m) = m :=
  reveal_hide img m hpix hm hcap hnomark

theorem C1_witness :
    reveal_lsb (hide_lsb ⟨32, 1, List.replicate 32 ⟨9, 18, 27, 36⟩⟩ [72, 105]) = [72, 105] :=
  C1_roundtrip ⟨32, 1, List.replicate 32 ⟨9, 18, 27, 36⟩⟩ [72, 105]
    (by decide) (by decide) (by decide) (by decide) (by decide) (by decide)

/-- C2 (counterexample): the bit iterator is not MSB-first.  At input 128
(bit 7 set, all others clear) an MSB-first iterator would yield `true`
first; `iterBits 128` yields `false` first and `true` last. -/
theorem C2_counterexample :
    iterBits 128 ≠ [true, false, false, false, false, false, false, false] ∧
    (128 : Nat).testBit 7 = true ∧
    iterBits 128 = [false, false, false, false, false, false, false, true] := by decide

/-- C2 (amended): `iterBits` yields exactly 8 booleans, ordered from bit
position 0 (value 1) up to bit position 7 (value 128) — LSB-first — and the
embedded wire stream is the LSB-first-per-byte stream of
`message_bytes ++ marker_bytes`. -/
theorem C2_lsb_first (v i : Nat) (m : List Nat) (h : i < 8) :
    (iterBits v).length = 8 ∧ (iterBits v).getD i false = v.testBit i ∧
      messageBits m = (m ++ LSB_MESSAGE_SUFFIX).flatMap iterBits :=
  ⟨iterBits_length v, iterBits_getD_testBit v i h, rfl⟩

theorem C2_witness :
    (iterBits 9).length = 8 ∧ (iterBits 9).getD 3 false = (9 : Nat).testBit 3 ∧
      messageBits [7] = ([7] ++ LSB_MESSAGE_SUFFIX).flatMap iterBits :=
  C2_lsb_first 9 3 [7] (by decide)

/-- C3: `iterBits 7 = [T,T,T,F,F,F,F,F]` and `iterBits 9 = [T,F,F,T,F,F,F,F]`,
exactly as the spec's bit-order examples state (and as the repository's own
`test_iter_bits` asserts). -/
theorem C3_bit_order :
    iterBits 7 = [true, true, true, false, false, false, false, false] ∧
    iterBits 9 = [true, false, false, true, false, false, false, false] := by decide

/-- C9: `reveal_lsb` is a pure function of the grid contents; two runs on
equal grids return identical byte sequences. -/
theorem C9_deterministic (img1 img2 : Image) (h : img1 = img2) :
    reveal_lsb img1 = reveal_lsb img2 := by rw [h]

theorem C9_witness :
    reveal_lsb ⟨1, 1, [⟨1, 2, 3, 4⟩]⟩ = reveal_lsb ⟨1, 1, [⟨1, 2, 3, 4⟩]⟩ :=
  C9_deterministic ⟨1, 1, [⟨1, 2, 3, 4⟩]⟩ ⟨1, 1, [⟨1, 2, 3, 4⟩]⟩ rfl

/-- C10: hiding never touches the alpha channel of any pixel, and revealing
reads only the r, g, b channels: its result depends only on the flattened
rgb channel stream. -/
theorem C10_alpha_untouched (img : Image) (m : List Nat) :
    (∀ i, ((hide_lsb img m).pixels.getD i ⟨0, 0, 0, 0⟩).a =
      (img.pixels.getD i ⟨0, 0, 0, 0⟩).a) ∧
    (∀ img2 : Image, channelsOf img2.pixels = channelsOf img.pixels →
      reveal_lsb img2 = reveal_lsb img) :=
  ⟨fun i => hidePixels_alpha img.pixels (messageBits m) i,
   fun img2 h => by rw [reveal_lsb, reveal_lsb, h]⟩

theorem C10_witness :
    ((hide_lsb ⟨1, 1, [⟨1, 2, 3, 9⟩]⟩ [2]).pixels.getD 0 ⟨0, 0, 0, 0⟩).a =
      ((⟨1, 1, [⟨1, 2, 3, 9⟩]⟩ : Image).pixels.getD 0 ⟨0, 0, 0, 0⟩).a ∧
    reveal_lsb ⟨1, 1, [⟨1, 2, 3, 9⟩]⟩ = reveal_lsb ⟨1, 1, [⟨1, 2, 3, 9⟩]⟩ :=
  ⟨(C10_alpha_untouched ⟨1, 1, [⟨1, 2, 3, 9⟩]⟩ [2]).1 0,
   (C10_alpha_untouched ⟨1, 1, [⟨1, 2, 3, 9⟩]⟩ [2]).2 ⟨1, 1, [⟨1, 2, 3, 9⟩]⟩ rfl⟩

/-- C4: `hide_lsb` is total and in-bounds for every grid and message: the
pixel list keeps its length and the dimensions are unchanged, the embedded
bit stream is silently truncated to the available channel slots (no error
is raised), and on a zero-size grid the call is a no-op. -/
theorem C4_truncation_safety (img : Image) (m : List Nat)
    (hpix : img.pixels.length = img.width * img.height) :
    (hide_lsb img m).pixels.length = img.pixels.length ∧
    (hide_lsb img m).width = img.width ∧
    (hide_lsb img m).height = img.height ∧
    hide_lsb img m =
      { img with pixels :=
          hidePixels img.pixels ((messageBits m).take (3 * img.pixels.length)) } ∧
    (img.width = 0 ∨ img.height = 0 → hide_lsb img m = img) := by
  refine ⟨?_, rfl, rfl, ?_, ?_⟩
  · simp only [hide_lsb]
    exact hidePixels_length _ _
  · simp only [hide_lsb]
    rw [← hidePixels_truncate]
  · intro h0
    have hlen0 : img.pixels.length = 0 := by
      rw [hpix]
      rcases h0 with h | h <;> rw [h] <;> ring
    have hnil : img.pixels = [] := List.length_eq_zero.mp hlen0
    cases img with
    | mk w h ps =>
      simp only at hnil
      subst hnil
      simp [hide_lsb, hidePixels]

theorem C4_witness :
    (hide_lsb ⟨0, 5, []⟩ [1, 2, 3]).pixels.length = (Image.mk 0 5 []).pixels.length ∧
    (hide_lsb ⟨0, 5, []⟩ [1, 2, 3]).width = (Image.mk 0 5 []).width ∧
    (hide_lsb ⟨0, 5, []⟩ [1, 2, 3]).height = (Image.mk 0 5 []).height ∧
    hide_lsb ⟨0, 5, []⟩ [1, 2, 3] =
      Image.mk 0 5 (hidePixels [] ((messageBits [1, 2, 3]).take (3 * 0))) ∧
    ((Image.mk 0 5 []).width = 0 ∨ (Image.mk 0 5 []).height = 0 →
      hide_lsb ⟨0, 5, []⟩ [1, 2, 3] = Image.mk 0 5 []) :=
  C4_truncation_safety ⟨0, 5, []⟩ [1, 2, 3] (by decide)

/-- C5: `hide_lsb` changes at most the least significant bit of each channel
it visits (the upper 7 bits of every channel survive), and every channel at
or beyond the length of the embedded bit stream keeps its exact value. -/
theorem C5_lsb_only (img : Image) (m : List Nat) (hval : img.Valid) :
    (channelsOf (hide_lsb img m).pixels).length = (channelsOf img.pixels).length ∧
    (∀ i, (channelsOf (hide_lsb img m).pixels).getD i 0 / 2 =
      (channelsOf img.pixels).getD i 0 / 2) ∧
    (∀ i, (messageBits m).length ≤ i →
      (channelsOf (hide_lsb img m).pixels).getD i 0 = (channelsOf img.pixels).getD i 0) := by
  have hch : channelsOf (hide_lsb img m).pixels =
      applyBits (channelsOf img.pixels) (messageBits m) := by
    simp only [hide_lsb]
    exact channelsOf_hidePixels _ _
  refine ⟨?_, ?_, ?_⟩
  · rw [hch, applyBits_length]
  · intro i
    rw [hch]
    exact applyBits_getD_div _ _ (channelsOf_valid img hval) i
  · intro i hi
    rw [hch]
    exact applyBits_getD_tail _ _ i hi

theorem C5_witness :
    (Image.mk 1 1 [⟨10, 20, 30, 40⟩]).Valid ∧
    (channelsOf (hide_lsb ⟨1, 1, [⟨10, 20, 30, 40⟩]⟩ []).pixels).getD 0 0 / 2 =
      (channelsOf (⟨1, 1, [⟨10, 20, 30, 40⟩]⟩ : Image).pixels).getD 0 0 / 2 :=
  ⟨by decide, (C5_lsb_only ⟨1, 1, [⟨10, 20, 30, 40⟩]⟩ [] (by decide)).2.1 0⟩

/-- C6: on a grid whose LSB byte stream never contains the marker at a
byte-aligned position, `reveal_lsb` returns every fully assembled byte —
exactly `width*height*3 / 8` bytes, with no trailing partial byte — and no
error is raised (the function is total). -/
theorem C6_no_marker (img : Image)
    (hpix : img.pixels.length = img.width * img.height)
    (hnm : ∀ j, j ≤ (lsbBytes (channelsOf img.pixels)).length →
      ¬ LSB_MESSAGE_SUFFIX <:+ (lsbBytes (channelsOf img.pixels)).take j) :
    reveal_lsb img = lsbBytes (channelsOf img.pixels) ∧
    (reveal_lsb img).length = img.width * img.height * 3 / 8 := by
  have h1 : reveal_lsb img = lsbBytes (channelsOf img.pixels) := by
    rw [reveal_lsb, revealLoop_eq_spec, rbs_nomatch _ [] ?_]
    · rw [List.nil_append]
    · intro j hj1 hj2 hsfx
      rw [List.nil_append] at hsfx
      exact hnm j hj2 hsfx
  refine ⟨h1, ?_⟩
  rw [h1, lsbBytes_length, channelsOf_length, hpix]
  have h : 3 * (img.width * img.height) = img.width * img.height * 3 := by ring
  rw [h]

theorem C6_witness :
    reveal_lsb ⟨4, 2, List.replicate 8 ⟨0, 0, 0, 0⟩⟩ =
      lsbBytes (channelsOf (List.replicate 8 ⟨0, 0, 0, 0⟩)) ∧
    (reveal_lsb ⟨4, 2, List.replicate 8 ⟨0, 0, 0, 0⟩⟩).length = 4 * 2 * 3 / 8 :=
  C6_no_marker ⟨4, 2, List.replicate 8 ⟨0, 0, 0, 0⟩⟩ (by decide) (by decide)

/-- C8: hiding the empty message in any grid with at least 48 channel slots
and revealing returns the empty byte sequence (marker isolation). -/
theorem C8_empty_roundtrip (img : Image)
    (hpix : img.pixels.length = img.width * img.height)
    (hcap : 48 ≤ img.width * img.height * 3) :
    reveal_lsb (hide_lsb img []) = [] := by
  refine reveal_hide img [] hpix (by simp) (by simpa using hcap) ?_
  intro j hj hsfx
  have h6 := hsfx.length_le
  rw [marker_length] at h6
  simp at hj
  subst hj
  simp at h6

theorem C8_witness :
    reveal_lsb (hide_lsb ⟨4, 4, List.replicate 16 ⟨5, 6, 7, 8⟩⟩ []) = [] :=
  C8_empty_roundtrip ⟨4, 4, List.replicate 16 ⟨5, 6, 7, 8⟩⟩ (by decide) (by decide)

/-- C7: if the message itself ends with the 6 marker bytes, revealing after
hiding stops at the first byte-aligned occurrence of the marker inside the
message: the result is the part of the message before that occurrence, not
the full message. -/
theorem C7_false_marker (img : Image) (m : List Nat) (j0 : Nat)
    (hpix : img.pixels.length = img.width * img.height)
    (hm : ∀ v ∈ m, v < 256)
    (hcap : 8 * (m.length + 6) ≤ img.width * img.height * 3)
    (hend : LSB_MESSAGE_SUFFIX <:+ m)
    (hj0le : j0 ≤ m.length)
    (hj0 : LSB_MESSAGE_SUFFIX <:+ m.take j0)
    (hmin : ∀ j, j < j0 → ¬ LSB_MESSAGE_SUFFIX <:+ m.take j) :
    reveal_lsb (hide_lsb img m) = m.take (j0 - 6) ∧
      reveal_lsb (hide_lsb img m) ≠ m := by
  have h6 : 6 ≤ j0 := by
    have hl := hj0.length_le
    rw [marker_length, List.length_take] at hl
    omega
  have hm6 : 6 ≤ m.length := by
    have hl := hend.length_le
    rw [marker_length] at hl
    exact hl
  have hB : ∀ v ∈ m ++ LSB_MESSAGE_SUFFIX, v < 256 := by
    intro v hv
    rcases List.mem_append.mp hv with h | h
    · exact hm v h
    · exact marker_mem_lt v h
  have hlen : 8 * (m ++ LSB_MESSAGE_SUFFIX).length ≤ (channelsOf img.pixels).length := by
    rw [List.length_append, marker_length, channelsOf_length, hpix]
    omega
  have hmain : reveal_lsb (hide_lsb img m) = m.take (j0 - 6) := by
    have step1 : reveal_lsb (hide_lsb img m) =
        revealBytesSpec (lsbBytes (applyBits (channelsOf img.pixels) (messageBits m))) [] := by
      rw [reveal_lsb, hide_lsb, channelsOf_hidePixels, revealLoop_eq_spec]
    rw [step1, messageBits, lsbBytes_applyBits (m ++ LSB_MESSAGE_SUFFIX) _ hB hlen]
    have hsplit : (m ++ LSB_MESSAGE_SUFFIX) ++
        lsbBytes ((channelsOf img.pixels).drop (8 * (m ++ LSB_MESSAGE_SUFFIX).length)) =
        m.take j0 ++ (m.drop j0 ++ (LSB_MESSAGE_SUFFIX ++
          lsbBytes ((channelsOf img.pixels).drop (8 * (m ++ LSB_MESSAGE_SUFFIX).length)))) := by
      conv_lhs => rw [← List.take_append_drop j0 m]
      simp only [List.append_assoc]
      have hlen3 : (m.take j0 ++ (m.drop j0 ++ LSB_MESSAGE_SUFFIX)).length =
          (m ++ LSB_MESSAGE_SUFFIX).length := by
        simp only [List.length_append, List.length_take, List.length_drop, marker_length]
        omega
      rw [hlen3]
    rw [hsplit, rbs_stops (m.take j0) _ hj0 ?_]
    · rw [List.length_take, List.take_take]
      have h1 : min j0 m.length = j0 := by omega
      have h2 : min (j0 - 6) j0 = j0 - 6 := by omega
      rw [h1, h2]
    · intro j hjlt
      rw [List.length_take] at hjlt
      rw [List.take_take]
      have hj : min j j0 = j := by omega
      rw [hj]
      exact hmin j (by omega)
  refine ⟨hmain, ?_⟩
  rw [hmain]
  intro heq
  have hlen2 := congrArg List.length heq
  rw [List.length_take] at hlen2
  omega

theorem C7_witness :
    reveal_lsb (hide_lsb ⟨35, 1, List.replicate 35 ⟨0, 0, 0, 0⟩⟩
      [65, 255, 255, 0, 0, 255, 0]) = [65] ∧
    reveal_lsb (hide_lsb ⟨35, 1, List.replicate 35 ⟨0, 0, 0, 0⟩⟩
      [65, 255, 255, 0, 0, 255, 0]) ≠ [65, 255, 255, 0, 0, 255, 0] :=
  C7_false_marker ⟨35, 1, List.replicate 35 ⟨0, 0, 0, 0⟩⟩ [65, 255, 255, 0, 0, 255, 0] 7
    (by decide) (by decide) (by decide) (by decide) (by decide) (by decide) (by decide)

end Steg
